import Mathlib

/-!
Shallow embedding of the RSA module: the bundled ES distribution
(`generateRandomKeys`, `PublicKey`, `PrivateKey`) together with models of
the external `bigint-crypto-utils` collaborators, whose contracts are fixed
by the design (§6): `bitLength`, `gcd`, `modInv`, `modPow`, and the probable
prime source.  The second distribution variant of the module is embedded
separately in the `RsaSrc` namespace.

All integers are nonnegative (`ℕ`), matching the value range the module
actually handles (primes, moduli, exponents, messages).  The prime source is
an explicit parameter `src : ℕ → ℕ → ℕ`, where `src k bits` is the value
returned by the `k`-th call to `prime(bits)`; the unbounded generation loop
is observed through an explicit fuel bound on the number of rounds.
-/

namespace RSA

/-- Modelled from the spec: the `bitLength(x)` collaborator — the number of
bits in the binary representation of `x`.  The first argument is structural
fuel; `x` itself always suffices since the value is halved at each step. -/
def bitLengthAux : ℕ → ℕ → ℕ
  | 0, _ => 0
  | fuel+1, x => if x = 0 then 0 else bitLengthAux fuel (x / 2) + 1

/-- Modelled from the spec: number of bits of `x` (`bitLength 0 = 0`,
and `bitLength x = Nat.log2 x + 1` for positive `x`). -/
def bitLength (x : ℕ) : ℕ := bitLengthAux x x

/-- Modelled from the spec: the `gcd(a, b)` collaborator — greatest common
divisor. -/
def gcd (a b : ℕ) : ℕ := Nat.gcd a b

/-- Modelled from the spec: the `modPow(base, exponent, modulus)`
collaborator — modular exponentiation. -/
def modPow (b e n : ℕ) : ℕ := b ^ e % n

/-- Modelled from the spec: the `modInv(a, m)` collaborator — the modular
inverse of `a` mod `m`, failing (`none`, the JS collaborator throws) when no
inverse exists, i.e. when `gcd(a, m) ≠ 1`. -/
def modInv (a m : ℕ) : Option ℕ := (List.range m).find? fun d => a * d % m == 1 % m

/-- `const _ONE = BigInt(1)`. -/
def _ONE : ℕ := 1

/-- `const _E = BigInt(65537)` — the fixed public exponent. -/
def _E : ℕ := 65537

/-- The `PublicKey` class: public exponent `e` and modulus `n`
(the constructor stores `BigInt(e)` and `BigInt(n)`). -/
structure PublicKey where
  e : ℕ
  n : ℕ
deriving DecidableEq

/-- `get bitLength() { return bitLength(this.n); }` -/
def PublicKey.bitLength (k : PublicKey) : ℕ := RSA.bitLength k.n

/-- `encrypt(m) { return modPow(m, this.e, this.n); }` -/
def PublicKey.encrypt (k : PublicKey) (m : ℕ) : ℕ := modPow m k.e k.n

/-- `verify(s) { return modPow(s, this.e, this.n); }` -/
def PublicKey.verify (k : PublicKey) (s : ℕ) : ℕ := modPow s k.e k.n

/-- The `PrivateKey` class: private exponent `d`, optional factorization
fields `_p`, `_q`, `_phi` (stored as `null` when the constructor argument is
falsy), and the reference to the associated `PublicKey`. -/
structure PrivateKey where
  d : ℕ
  _p : Option ℕ
  _q : Option ℕ
  _phi : Option ℕ
  publicKey : PublicKey
deriving DecidableEq

/-- `new PrivateKey(d, p, q, phi, publicKey)` applied to BigInt arguments:
each optional argument passes the truthiness test `(p) ? BigInt(p) : null`
iff it is nonzero (`0n` is falsy in JS). -/
def mkPrivateKey (d p q phi : ℕ) (publicKey : PublicKey) : PrivateKey :=
  ⟨d, if p = 0 then none else some p,
      if q = 0 then none else some q,
      if phi = 0 then none else some phi, publicKey⟩

/-- `get bitLength() { return bitLength(this.publicKey.n); }` -/
def PrivateKey.bitLength (k : PrivateKey) : ℕ := RSA.bitLength k.publicKey.n

/-- `get n() { return this.publicKey.n; }` -/
def PrivateKey.n (k : PrivateKey) : ℕ := k.publicKey.n

/-- `sign(m) { return modPow(m, this.d, this.publicKey.n); }` -/
def PrivateKey.sign (k : PrivateKey) (m : ℕ) : ℕ := modPow m k.d k.publicKey.n

/-- `decrypt(e) { return modPow(e, this.d, this.publicKey.n); }` -/
def PrivateKey.decrypt (k : PrivateKey) (c : ℕ) : ℕ := modPow c k.d k.publicKey.n

/-- The `KeyPair` record `{ publicKey, privateKey }`. -/
structure KeyPair where
  publicKey : PublicKey
  privateKey : PrivateKey
deriving DecidableEq

/-- `p = await prime(Math.floor(bitLength / 2) + 1)` — the first prime call
of round `i` is the `2*i`-th call to the prime source. -/
def roundP (B : ℕ) (src : ℕ → ℕ → ℕ) (i : ℕ) : ℕ := src (2 * i) (B / 2 + 1)

/-- `q = await prime(Math.floor(bitLength / 2))` — the second prime call of
round `i` is the `2*i+1`-th call to the prime source. -/
def roundQ (B : ℕ) (src : ℕ → ℕ → ℕ) (i : ℕ) : ℕ := src (2 * i + 1) (B / 2)

/-- The do-while condition of the generation loop:
`p === q || bitLength(n) !== bitLength || !(gcd(phi, _E) === _ONE)`
with `n = p * q` and `phi = (p - 1) * (q - 1)`. -/
def keepLooping (B p q : ℕ) : Bool :=
  p == q || bitLength (p * q) != B || !(gcd ((p - 1) * (q - 1)) _E == _ONE)

/-- The generation loop, round `i` onwards, observed up to `fuel` rounds:
sample `p` and `q`, and repeat while the do-while condition holds.  Returns
the pair of primes of the first accepted round, or `none` when all observed
rounds were rejected. -/
def genLoopFrom (B : ℕ) (src : ℕ → ℕ → ℕ) : ℕ → ℕ → Option (ℕ × ℕ)
  | 0, _ => none
  | fuel+1, i =>
      if keepLooping B (roundP B src i) (roundQ B src i) then
        genLoopFrom B src fuel (i + 1)
      else
        some (roundP B src i, roundQ B src i)

/-- The generation loop of `generateRandomKeys`, starting at round 0. -/
def genLoop (B : ℕ) (src : ℕ → ℕ → ℕ) (fuel : ℕ) : Option (ℕ × ℕ) :=
  genLoopFrom B src fuel 0

/-- `generateRandomKeys(bitLength = 2048)`: run the sampling loop, then
`d = modInv(_E, phi)` (a throw propagates as `none`), then construct
`PublicKey(_E, n)` and `PrivateKey(d, p, q, phi, publicKey)` and return
`{ publicKey, privateKey }`. -/
def generateRandomKeys (B : ℕ) (src : ℕ → ℕ → ℕ) (fuel : ℕ) : Option KeyPair :=
  match genLoop B src fuel with
  | none => none
  | some (p, q) =>
    match modInv _E ((p - 1) * (q - 1)) with
    | none => none
    | some d =>
      let publicKey : PublicKey := ⟨_E, p * q⟩
      some ⟨publicKey, mkPrivateKey d p q ((p - 1) * (q - 1)) publicKey⟩

/-- Modelled from the spec: the acceptance predicate of §4.1 step 4 —
repeat until ALL of `p ≠ q`, `bitLength(n) == bitLength`, and
`gcd(φ, e) == 1` hold. -/
def specAccept (B p q : ℕ) : Bool :=
  p != q && bitLength (p * q) == B && gcd ((p - 1) * (q - 1)) _E == 1

/-- Modelled from the spec: §4.1 steps 1–4 — each round samples `p` as a
probable prime of bit length `floor(B/2) + 1` and `q` of bit length
`floor(B/2)` (both freshly drawn from the source, no reuse across rounds),
and repeats until the acceptance predicate holds. -/
def genLoopSpecFrom (B : ℕ) (src : ℕ → ℕ → ℕ) : ℕ → ℕ → Option (ℕ × ℕ)
  | 0, _ => none
  | fuel+1, i =>
      if specAccept B (roundP B src i) (roundQ B src i) then
        some (roundP B src i, roundQ B src i)
      else
        genLoopSpecFrom B src fuel (i + 1)

/-- Modelled from the spec: §4.1 steps 1–7 — run the sampling loop, then
compute `d = modInv(e, φ)`, construct `PublicKey(e, n)` then
`PrivateKey(d, p, q, φ, publicKey)` and return `{publicKey, privateKey}`. -/
def generateRandomKeysSpec (B : ℕ) (src : ℕ → ℕ → ℕ) (fuel : ℕ) : Option KeyPair :=
  match genLoopSpecFrom B src fuel 0 with
  | none => none
  | some (p, q) =>
    match modInv _E ((p - 1) * (q - 1)) with
    | none => none
    | some d =>
      let publicKey : PublicKey := ⟨_E, p * q⟩
      some ⟨publicKey, mkPrivateKey d p q ((p - 1) * (q - 1)) publicKey⟩

end RSA

/-!
The second distribution variant of the module (the `'use strict'` ES module,
which reaches the collaborators through `crypto.`-qualified imports).  It is
transcribed independently from its own source text; both variants share the
same external collaborators (`bitLength`, `gcd`, `modInv`, `modPow`) and the
same prime source.
-/

namespace RsaSrc

/-- `const _ONE = BigInt(1)` of the second variant. -/
def _ONE : ℕ := 1

/-- `const _E = BigInt(65537)` of the second variant. -/
def _E : ℕ := 65537

/-- The `PublicKey` class of the second variant. -/
structure PublicKey where
  e : ℕ
  n : ℕ
deriving DecidableEq

/-- `get bitLength() { return crypto.bitLength(this.n); }` -/
def PublicKey.bitLength (k : PublicKey) : ℕ := RSA.bitLength k.n

/-- `encrypt(m) { return crypto.modPow(m, this.e, this.n); }` -/
def PublicKey.encrypt (k : PublicKey) (m : ℕ) : ℕ := RSA.modPow m k.e k.n

/-- `verify(s) { return crypto.modPow(s, this.e, this.n); }` -/
def PublicKey.verify (k : PublicKey) (s : ℕ) : ℕ := RSA.modPow s k.e k.n

/-- The `PrivateKey` class of the second variant. -/
structure PrivateKey where
  d : ℕ
  _p : Option ℕ
  _q : Option ℕ
  _phi : Option ℕ
  publicKey : PublicKey
deriving DecidableEq

/-- `new PrivateKey(d, p, q, phi, publicKey)` of the second variant applied
to BigInt arguments. -/
def mkPrivateKey (d p q phi : ℕ) (publicKey : PublicKey) : PrivateKey :=
  ⟨d, if p = 0 then none else some p,
      if q = 0 then none else some q,
      if phi = 0 then none else some phi, publicKey⟩

/-- `get bitLength() { return crypto.bitLength(this.publicKey.n); }` -/
def PrivateKey.bitLength (k : PrivateKey) : ℕ := RSA.bitLength k.publicKey.n

/-- `get n() { return this.publicKey.n; }` -/
def PrivateKey.n (k : PrivateKey) : ℕ := k.publicKey.n

/-- `sign(m) { return crypto.modPow(m, this.d, this.publicKey.n); }` -/
def PrivateKey.sign (k : PrivateKey) (m : ℕ) : ℕ := RSA.modPow m k.d k.publicKey.n

/-- `decrypt(e) { return crypto.modPow(e, this.d, this.publicKey.n); }` -/
def PrivateKey.decrypt (k : PrivateKey) (c : ℕ) : ℕ := RSA.modPow c k.d k.publicKey.n

/-- The `KeyPair` record of the second variant. -/
structure KeyPair where
  publicKey : PublicKey
  privateKey : PrivateKey
deriving DecidableEq

/-- The do-while condition of the second variant:
`p === q || crypto.bitLength(n) !== bitLength || !(crypto.gcd(phi, _E) === _ONE)`. -/
def keepLooping (B p q : ℕ) : Bool :=
  p == q || RSA.bitLength (p * q) != B || !(RSA.gcd ((p - 1) * (q - 1)) _E == _ONE)

/-- The generation loop of the second variant, round `i` onwards. -/
def genLoopFrom (B : ℕ) (src : ℕ → ℕ → ℕ) : ℕ → ℕ → Option (ℕ × ℕ)
  | 0, _ => none
  | fuel+1, i =>
      if keepLooping B (RSA.roundP B src i) (RSA.roundQ B src i) then
        genLoopFrom B src fuel (i + 1)
      else
        some (RSA.roundP B src i, RSA.roundQ B src i)

/-- `generateRandomKeys(bitLength = 2048)` of the second variant. -/
def generateRandomKeys (B : ℕ) (src : ℕ → ℕ → ℕ) (fuel : ℕ) : Option KeyPair :=
  match genLoopFrom B src fuel 0 with
  | none => none
  | some (p, q) =>
    match RSA.modInv _E ((p - 1) * (q - 1)) with
    | none => none
    | some d =>
      let publicKey : PublicKey := ⟨_E, p * q⟩
      some ⟨publicKey, mkPrivateKey d p q ((p - 1) * (q - 1)) publicKey⟩

end RsaSrc

namespace RSA

/-- Conversion of a second-variant public key to the bundled variant
(field-for-field). -/
def pubOfSrc (k : RsaSrc.PublicKey) : PublicKey := ⟨k.e, k.n⟩

/-- Conversion of a second-variant private key to the bundled variant
(field-for-field). -/
def privOfSrc (k : RsaSrc.PrivateKey) : PrivateKey :=
  ⟨k.d, k._p, k._q, k._phi, pubOfSrc k.publicKey⟩

/-- Conversion of a second-variant keypair to the bundled variant. -/
def kpOfSrc (kp : RsaSrc.KeyPair) : KeyPair :=
  ⟨pubOfSrc kp.publicKey, privOfSrc kp.privateKey⟩

/-!
JavaScript argument values relevant to the `PrivateKey` constructor: the
constructor guards the optional factorization arguments with the truthiness
test `(p) ? BigInt(p) : null`, while `d` is coerced unconditionally with
`BigInt(d)` (which throws on `null` and `undefined`).
-/

/-- A JS value passed to the `PrivateKey` constructor: `null`, `undefined`,
a (nonnegative integral) number, or a (nonnegative) BigInt. -/
inductive JSVal where
  | null : JSVal
  | undefined : JSVal
  | num (v : ℕ) : JSVal
  | bigint (v : ℕ) : JSVal
deriving DecidableEq

/-- JS truthiness of a `JSVal`: `null`, `undefined`, `0` and `0n` are falsy,
every other number or BigInt is truthy. -/
def truthy : JSVal → Bool
  | .null => false
  | .undefined => false
  | .num v => v != 0
  | .bigint v => v != 0

/-- `BigInt(x)` on a `JSVal`: throws (`none`) on `null` and `undefined`,
converts numbers and BigInts. -/
def jsBigInt : JSVal → Option ℕ
  | .null => none
  | .undefined => none
  | .num v => some v
  | .bigint v => some v

/-- `new PrivateKey(d, p, q, phi, publicKey)` on arbitrary JS argument
values: `this.d = BigInt(d)` (a throw aborts construction), then
`this._p = (p) ? BigInt(p) : null` and likewise for `_q` and `_phi`. -/
def privateKeyNew (d p q phi : JSVal) (publicKey : PublicKey) : Option PrivateKey :=
  match jsBigInt d with
  | none => none
  | some dv =>
      some ⟨dv, if truthy p then jsBigInt p else none,
                if truthy q then jsBigInt q else none,
                if truthy phi then jsBigInt phi else none, publicKey⟩

/-!
Concrete witness data: a prime source whose round 0 is accepted for
`B = 4` (`p = 5`, `q = 3`, `n = 15`, `φ = 8`), and a 128-bit source used to
exercise the generator at a realistic modulus size.
-/

/-- A prime source for witnesses: call 0 returns 5, every later call
returns 3.  Every value it produces is a genuine prime. -/
def srcW : ℕ → ℕ → ℕ := fun k _ => if k = 0 then 5 else 3

/-- The keypair generated from `srcW` at `B = 4` with one round of fuel. -/
def kpW : KeyPair :=
  ⟨⟨65537, 15⟩, ⟨1, some 5, some 3, some 8, ⟨65537, 15⟩⟩⟩

/-- A source for the 128-bit witness: call 0 returns `2^64 + 1`, every later
call returns `2^63 + 1` (the gate does not require primality, and claim C5
assumes none). -/
def srcC5 : ℕ → ℕ → ℕ :=
  fun k _ => if k = 0 then 18446744073709551617 else 9223372036854775809

/-- The private key produced by the constructor witness
`new PrivateKey(7n, 5n, null, 0, publicKey)`. -/
def kC10 : PrivateKey := ⟨7, some 5, none, none, ⟨65537, 15⟩⟩

/-! Helper lemmas about the collaborator models. -/

theorem bitLengthAux_zero (fuel : ℕ) : bitLengthAux fuel 0 = 0 := by
  cases fuel <;> rfl

theorem bitLengthAux_lower :
    ∀ fuel x, x ≤ fuel → x ≠ 0 →
      1 ≤ bitLengthAux fuel x ∧ 2 ^ (bitLengthAux fuel x - 1) ≤ x := by
  intro fuel
  induction fuel with
  | zero => intro x hx h0; omega
  | succ fuel ih =>
    intro x hx h0
    simp only [bitLengthAux, if_neg h0]
    refine ⟨Nat.le_add_left 1 _, ?_⟩
    by_cases h2 : x / 2 = 0
    · rw [h2, bitLengthAux_zero]
      simpa using Nat.one_le_iff_ne_zero.mpr h0
    · have hx2 : x / 2 ≤ fuel := by omega
      obtain ⟨h1, hl⟩ := ih (x / 2) hx2 h2
      have hb : bitLengthAux fuel (x / 2) - 1 + 1 = bitLengthAux fuel (x / 2) := by omega
      rw [Nat.add_sub_cancel, ← hb, pow_succ]
      calc 2 ^ (bitLengthAux fuel (x / 2) - 1) * 2
          ≤ x / 2 * 2 := Nat.mul_le_mul_right 2 hl
        _ ≤ x := Nat.div_mul_le_self x 2

theorem bitLength_lower {x B : ℕ} (hB : 1 ≤ B) (h : bitLength x = B) :
    2 ^ (B - 1) ≤ x := by
  have hx : x ≠ 0 := by
    rintro rfl
    rw [bitLength, bitLengthAux_zero] at h
    omega
  have hle := (bitLengthAux_lower x x le_rfl hx).2
  rw [bitLength] at h
  rw [h] at hle
  exact hle

theorem modInv_some {a m d : ℕ} (h : modInv a m = some d) :
    a * d % m = 1 % m ∧ d < m := by
  have h1 := List.find?_some h
  have h2 := List.mem_of_find?_eq_some h
  exact ⟨by simpa using h1, by simpa using List.mem_range.mp h2⟩

theorem modInv_isSome_of_coprime {a m : ℕ} (hm : 0 < m) (h : Nat.gcd a m = 1) :
    (modInv a m).isSome = true := by
  haveI : NeZero m := ⟨hm.ne'⟩
  rw [modInv, List.find?_isSome]
  refine ⟨((a : ZMod m)⁻¹).val, List.mem_range.mpr (ZMod.val_lt _), ?_⟩
  rw [beq_iff_eq]
  have key : (((a * ((a : ZMod m)⁻¹).val : ℕ)) : ZMod m) = ((1 : ℕ) : ZMod m) := by
    push_cast
    rw [ZMod.natCast_rightInverse _, ZMod.mul_inv_eq_gcd, ZMod.val_natCast,
      ← Nat.gcd_rec, Nat.gcd_comm, h]
    simp
  exact (ZMod.natCast_eq_natCast_iff _ _ _).mp key

/-! The RSA correctness identity for a squarefree two-prime modulus. -/

theorem phi_two_le {p q : ℕ} (hp : p.Prime) (hq : q.Prime) (hpq : p ≠ q) :
    2 ≤ (p - 1) * (q - 1) := by
  have h2p := hp.two_le
  have h2q := hq.two_le
  have h3 : 3 ≤ p ∨ 3 ≤ q := by omega
  rcases h3 with h | h
  · calc 2 = 2 * 1 := rfl
      _ ≤ (p - 1) * (q - 1) := Nat.mul_le_mul (by omega) (by omega)
  · calc 2 = 1 * 2 := rfl
      _ ≤ (p - 1) * (q - 1) := Nat.mul_le_mul (by omega) (by omega)

theorem pow_fermat_step {p : ℕ} (hp : p.Prime) {r : ℕ} (hr : p - 1 ∣ r) (m : ℕ) :
    m ^ (r + 1) ≡ m [MOD p] := by
  haveI : Fact p.Prime := ⟨hp⟩
  have key : ((m : ZMod p)) ^ (r + 1) = (m : ZMod p) := by
    obtain ⟨c, rfl⟩ := hr
    by_cases h0 : (m : ZMod p) = 0
    · rw [h0, zero_pow (Nat.succ_ne_zero _)]
    · rw [pow_succ, pow_mul, ZMod.pow_card_sub_one_eq_one h0, one_pow, one_mul]
  refine (ZMod.natCast_eq_natCast_iff _ _ _).mp ?_
  push_cast
  exact key

theorem rsa_pow_identity {p q e d : ℕ} (hp : p.Prime) (hq : q.Prime) (hpq : p ≠ q)
    (hed : e * d % ((p - 1) * (q - 1)) = 1 % ((p - 1) * (q - 1))) (m : ℕ) :
    m ^ (e * d) ≡ m [MOD p * q] := by
  have hphi : 2 ≤ (p - 1) * (q - 1) := phi_two_le hp hq hpq
  have h1 : 1 % ((p - 1) * (q - 1)) = 1 := Nat.mod_eq_of_lt (by omega)
  have hed2 : e * d = (p - 1) * (q - 1) * (e * d / ((p - 1) * (q - 1))) + 1 := by
    conv_lhs => rw [← Nat.div_add_mod (e * d) ((p - 1) * (q - 1))]
    rw [hed, h1]
  rw [hed2]
  have hdp : p - 1 ∣ (p - 1) * (q - 1) * (e * d / ((p - 1) * (q - 1))) :=
    dvd_mul_of_dvd_left (dvd_mul_right (p - 1) (q - 1)) _
  have hdq : q - 1 ∣ (p - 1) * (q - 1) * (e * d / ((p - 1) * (q - 1))) :=
    dvd_mul_of_dvd_left (dvd_mul_left (q - 1) (p - 1)) _
  have cp : Nat.Coprime p q := (Nat.coprime_primes hp hq).mpr hpq
  exact (Nat.modEq_and_modEq_iff_modEq_mul cp).mp
    ⟨pow_fermat_step hp hdp m, pow_fermat_step hq hdq m⟩

/-! Helper lemmas about the generation loop. -/

theorem keepLooping_eq_false {B p q : ℕ} :
    keepLooping B p q = false ↔
      p ≠ q ∧ bitLength (p * q) = B ∧ Nat.gcd ((p - 1) * (q - 1)) _E = 1 := by
  simp [keepLooping, gcd, _ONE, and_assoc]

theorem genLoopFrom_some {B : ℕ} {src : ℕ → ℕ → ℕ} :
    ∀ {fuel i p q : ℕ}, genLoopFrom B src fuel i = some (p, q) →
      (∃ j, p = roundP B src j ∧ q = roundQ B src j) ∧ keepLooping B p q = false := by
  intro fuel
  induction fuel with
  | zero => intro i p q h; simp [genLoopFrom] at h
  | succ fuel ih =>
    intro i p q h
    rw [genLoopFrom] at h
    by_cases hk : keepLooping B (roundP B src i) (roundQ B src i) = true
    · rw [if_pos hk] at h
      exact ih h
    · rw [if_neg hk] at h
      simp only [Option.some.injEq, Prod.mk.injEq] at h
      obtain ⟨hp, hq⟩ := h
      subst hp
      subst hq
      exact ⟨⟨i, rfl, rfl⟩, by simpa using hk⟩

theorem genLoopFrom_isSome {B : ℕ} {src : ℕ → ℕ → ℕ} :
    ∀ fuel i, (genLoopFrom B src fuel i).isSome = true ↔
      ∃ j, i ≤ j ∧ j < i + fuel ∧
        keepLooping B (roundP B src j) (roundQ B src j) = false := by
  intro fuel
  induction fuel with
  | zero =>
    intro i
    simp only [genLoopFrom, Option.isSome_none, Bool.false_eq_true, false_iff]
    rintro ⟨j, h1, h2, _⟩
    omega
  | succ fuel ih =>
    intro i
    rw [genLoopFrom]
    by_cases hk : keepLooping B (roundP B src i) (roundQ B src i) = true
    · rw [if_pos hk, ih (i + 1)]
      constructor
      · rintro ⟨j, h1, h2, h3⟩
        exact ⟨j, by omega, by omega, h3⟩
      · rintro ⟨j, h1, h2, h3⟩
        have hji : j ≠ i := by
          rintro rfl
          rw [h3] at hk
          cases hk
        exact ⟨j, by omega, by omega, h3⟩
    · rw [if_neg hk]
      simp only [Option.isSome_some, true_iff]
      exact ⟨i, le_rfl, by omega, by simpa using hk⟩

theorem generateRandomKeys_some {B : ℕ} {src : ℕ → ℕ → ℕ} {fuel : ℕ} {kp : KeyPair}
    (h : generateRandomKeys B src fuel = some kp) :
    ∃ p q d, (∃ j, p = roundP B src j ∧ q = roundQ B src j) ∧
      keepLooping B p q = false ∧
      modInv _E ((p - 1) * (q - 1)) = some d ∧
      kp = ⟨⟨_E, p * q⟩, mkPrivateKey d p q ((p - 1) * (q - 1)) ⟨_E, p * q⟩⟩ := by
  unfold generateRandomKeys at h
  split at h
  · exact absurd h (by simp)
  next p q heq =>
    split at h
    · exact absurd h (by simp)
    next d heq2 =>
      simp only [Option.some.injEq] at h
      obtain ⟨hj, hk⟩ := genLoopFrom_some heq
      exact ⟨p, q, d, hj, hk, heq2, h.symm⟩

theorem generateRandomKeys_of_genLoop {B : ℕ} {src : ℕ → ℕ → ℕ} {fuel p q : ℕ}
    (hl : genLoop B src fuel = some (p, q)) :
    ∃ d, modInv _E ((p - 1) * (q - 1)) = some d ∧
      generateRandomKeys B src fuel =
        some ⟨⟨_E, p * q⟩, mkPrivateKey d p q ((p - 1) * (q - 1)) ⟨_E, p * q⟩⟩ := by
  obtain ⟨_, hk⟩ := genLoopFrom_some hl
  obtain ⟨hne, hbl, hgcd⟩ := keepLooping_eq_false.mp hk
  have hphi : 0 < (p - 1) * (q - 1) := by
    rcases Nat.eq_zero_or_pos ((p - 1) * (q - 1)) with h0 | hpos
    · rw [h0] at hgcd
      simp [_E] at hgcd
    · exact hpos
  have hco : Nat.gcd _E ((p - 1) * (q - 1)) = 1 := by
    rw [Nat.gcd_comm]
    exact hgcd
  obtain ⟨d, hd⟩ := Option.isSome_iff_exists.mp (modInv_isSome_of_coprime hphi hco)
  refine ⟨d, hd, ?_⟩
  simp only [generateRandomKeys, hl, hd]

/-! Equality of the code loop condition with the acceptance predicate of the
specified algorithm, and of the two loop formulations. -/

theorem specAccept_eq_not_keepLooping (B p q : ℕ) :
    specAccept B p q = !keepLooping B p q := by
  simp only [specAccept, keepLooping, _ONE, bne]
  cases p == q <;> cases bitLength (p * q) == B <;>
    cases gcd ((p - 1) * (q - 1)) _E == 1 <;> rfl

theorem genLoopSpecFrom_eq (B : ℕ) (src : ℕ → ℕ → ℕ) :
    ∀ fuel i, genLoopSpecFrom B src fuel i = genLoopFrom B src fuel i := by
  intro fuel
  induction fuel with
  | zero => intro i; rfl
  | succ fuel ih =>
    intro i
    rw [genLoopSpecFrom, genLoopFrom, specAccept_eq_not_keepLooping]
    cases hk : keepLooping B (roundP B src i) (roundQ B src i) <;> simp [ih]

/-! The claims. -/

/-- Claim C1: assuming the prime collaborator returns genuine primes, for
every keypair returned by `generateRandomKeys(B)` and every integer `m` with
`0 ≤ m < n`, `privateKey.decrypt(publicKey.encrypt(m)) = m` and
`publicKey.verify(privateKey.sign(m)) = m` — the RSA round-trip identity
holds by construction of the generated key material. -/
theorem rsa_roundtrip_correct (B : ℕ) (src : ℕ → ℕ → ℕ) (fuel : ℕ) (kp : KeyPair)
    (hsrc : ∀ k bits, Nat.Prime (src k bits))
    (hgen : generateRandomKeys B src fuel = some kp)
    (m : ℕ) (hm : m < kp.publicKey.n) :
    kp.privateKey.decrypt (kp.publicKey.encrypt m) = m ∧
    kp.publicKey.verify (kp.privateKey.sign m) = m := by
  obtain ⟨p, q, d, ⟨j, hpj, hqj⟩, hkl, hinv, rfl⟩ := generateRandomKeys_some hgen
  obtain ⟨hne, hbl, hgcd⟩ := keepLooping_eq_false.mp hkl
  have hp : p.Prime := by rw [hpj]; exact hsrc _ _
  have hq : q.Prime := by rw [hqj]; exact hsrc _ _
  have hed := (modInv_some hinv).1
  have hm2 : m < p * q := hm
  have hmod : ∀ x y : ℕ, x * y = _E * d → (m ^ x % (p * q)) ^ y % (p * q) = m := by
    intro x y hxy
    have h1 : (m ^ x % (p * q)) ^ y % (p * q) = (m ^ x) ^ y % (p * q) :=
      (Nat.pow_mod _ _ _).symm
    have h2 : m ^ (_E * d) % (p * q) = m % (p * q) := rsa_pow_identity hp hq hne hed m
    rw [h1, ← pow_mul, hxy, h2, Nat.mod_eq_of_lt hm2]
  exact ⟨hmod _E d rfl, hmod d _E (mul_comm d _E)⟩

/-- Witness for C1 at `B = 4` with the all-prime source `srcW`. -/
theorem rsa_roundtrip_correct_witness :
    (∀ k bits, Nat.Prime (srcW k bits)) ∧
    generateRandomKeys 4 srcW 1 = some kpW ∧ 2 < kpW.publicKey.n ∧
    (kpW.privateKey.decrypt (kpW.publicKey.encrypt 2) = 2 ∧
     kpW.publicKey.verify (kpW.privateKey.sign 2) = 2) := by
  have hs : ∀ k bits, Nat.Prime (srcW k bits) := by
    intro k bits
    by_cases h : k = 0 <;> simp [srcW, h] <;> norm_num
  have hg : generateRandomKeys 4 srcW 1 = some kpW := by decide
  exact ⟨hs, hg, by decide, rsa_roundtrip_correct 4 srcW 1 kpW hs hg 2 (by decide)⟩

/-- Claim C2: for every keypair successfully returned by
`generateRandomKeys(B)`, the bit length of the modulus equals the requested
`B` exactly — the loop gate is hard, so no keypair with a modulus of any
other size is ever returned. -/
theorem modulus_bitLength_exact (B : ℕ) (src : ℕ → ℕ → ℕ) (fuel : ℕ) (kp : KeyPair)
    (hgen : generateRandomKeys B src fuel = some kp) :
    kp.publicKey.bitLength = B := by
  obtain ⟨p, q, d, _, hkl, _, rfl⟩ := generateRandomKeys_some hgen
  obtain ⟨_, hbl, _⟩ := keepLooping_eq_false.mp hkl
  exact hbl

/-- Witness for C2 at `B = 4` with the source `srcW`. -/
theorem modulus_bitLength_exact_witness :
    generateRandomKeys 4 srcW 1 = some kpW ∧ kpW.publicKey.bitLength = 4 := by
  have hg : generateRandomKeys 4 srcW 1 = some kpW := by decide
  exact ⟨hg, modulus_bitLength_exact 4 srcW 1 kpW hg⟩

/-- Claim C3: `generateRandomKeys(B)` follows exactly the specified
algorithm — each round samples `p` with requested bit length
`floor(B/2) + 1` and `q` with `floor(B/2)` from fresh prime-source calls
(calls `2i` and `2i+1` of round `i`, so no prime is reused across rounds),
computes `n = p*q` and `φ = (p-1)(q-1)`, repeats until `p ≠ q`,
`bitLength(n) = B` and `gcd(φ, 65537) = 1` all hold, and only then computes
`d = modInv(e, φ)`: the code generator and the spec algorithm are equal as
functions. -/
theorem generator_matches_spec_algorithm :
    ∀ (B : ℕ) (src : ℕ → ℕ → ℕ) (fuel : ℕ),
      generateRandomKeys B src fuel = generateRandomKeysSpec B src fuel := by
  intro B src fuel
  unfold generateRandomKeys generateRandomKeysSpec genLoop
  rw [genLoopSpecFrom_eq]

/-- Claim C4: each of the four keyed operations equals a single modular
exponentiation over the key material: `encrypt` and `verify` both compute
`x^e mod n` (hence coincide), `sign` and `decrypt` both compute
`x^d mod n` (hence coincide). -/
theorem keyed_ops_single_modPow :
    ∀ (k : PublicKey) (s : PrivateKey) (x y : ℕ),
      k.encrypt x = x ^ k.e % k.n ∧ k.verify x = x ^ k.e % k.n ∧
      k.encrypt x = k.verify x ∧
      s.sign y = y ^ s.d % s.n ∧ s.decrypt y = y ^ s.d % s.n ∧
      s.sign y = s.decrypt y := by
  intro k s x y
  exact ⟨rfl, rfl, rfl, rfl, rfl, rfl⟩

/-- Claim C5: for every keypair produced by a successful sampling round of
`generateRandomKeys(B)` with `B ≥ 128`, the public exponent is the fixed
constant 65537 with `1 < e < n` and `gcd(e, φ) = 1`, and consequently the
call `d = modInv(e, φ)` after the loop cannot hit `modInv`'s failure case. -/
theorem public_exponent_invariant (B : ℕ) (src : ℕ → ℕ → ℕ) (fuel p q : ℕ)
    (hB : 128 ≤ B) (hl : genLoop B src fuel = some (p, q)) :
    Nat.gcd _E ((p - 1) * (q - 1)) = 1 ∧
    (modInv _E ((p - 1) * (q - 1))).isSome = true ∧
    ∃ kp, generateRandomKeys B src fuel = some kp ∧
      kp.publicKey.e = 65537 ∧ 1 < kp.publicKey.e ∧ kp.publicKey.e < kp.publicKey.n := by
  obtain ⟨_, hk⟩ := genLoopFrom_some hl
  obtain ⟨hne, hbl, hgcd⟩ := keepLooping_eq_false.mp hk
  have hco : Nat.gcd _E ((p - 1) * (q - 1)) = 1 := by
    rw [Nat.gcd_comm]
    exact hgcd
  obtain ⟨d, hd, hgen⟩ := generateRandomKeys_of_genLoop hl
  have hn : 2 ^ (B - 1) ≤ p * q := bitLength_lower (by omega) hbl
  have hmono : (2 : ℕ) ^ 17 ≤ 2 ^ (B - 1) :=
    Nat.pow_le_pow_right (by norm_num) (by omega)
  have h17 : (65537 : ℕ) < 2 ^ 17 := by norm_num
  have hlt : (65537 : ℕ) < p * q := by omega
  refine ⟨hco, by rw [hd]; rfl, ⟨_, hgen, rfl, by norm_num [_E], ?_⟩⟩
  exact hlt

set_option maxRecDepth 4000

/-- Witness for C5 at `B = 128` with the source `srcC5` (round 0 passes the
gate with `p = 2^64 + 1`, `q = 2^63 + 1`). -/
theorem public_exponent_invariant_witness :
    128 ≤ 128 ∧
    genLoop 128 srcC5 1 = some (18446744073709551617, 9223372036854775809) ∧
    (Nat.gcd _E ((18446744073709551617 - 1) * (9223372036854775809 - 1)) = 1 ∧
     (modInv _E ((18446744073709551617 - 1) * (9223372036854775809 - 1))).isSome = true ∧
     ∃ kp, generateRandomKeys 128 srcC5 1 = some kp ∧
       kp.publicKey.e = 65537 ∧ 1 < kp.publicKey.e ∧ kp.publicKey.e < kp.publicKey.n) := by
  have hl : genLoop 128 srcC5 1 = some (18446744073709551617, 9223372036854775809) := by
    decide
  exact ⟨le_rfl, hl, public_exponent_invariant 128 srcC5 1 _ _ le_rfl hl⟩

/-- Claim C6: the generation loop has no hard iteration cap — observed to
any round bound, it succeeds exactly when some round within the bound
satisfies the combined predicate (`p ≠ q`, `bitLength(n) = B`,
`gcd(φ, 65537) = 1`), i.e. it only retries while the predicate fails and no
bounded-retry failure exists. -/
theorem generation_loop_uncapped :
    ∀ (B : ℕ) (src : ℕ → ℕ → ℕ) (fuel : ℕ),
      (genLoop B src fuel).isSome = true ↔
        ∃ i, i < fuel ∧ keepLooping B (roundP B src i) (roundQ B src i) = false := by
  intro B src fuel
  rw [genLoop, genLoopFrom_isSome]
  constructor
  · rintro ⟨j, _, h2, h3⟩
    exact ⟨j, by omega, h3⟩
  · rintro ⟨j, h1, h3⟩
    exact ⟨j, by omega, by omega, h3⟩

/-- Claim C7: out-of-range operands are silently reduced, never rejected —
all four keyed operations are total and agree on `m` and `m mod n`. -/
theorem out_of_range_operands_wrap :
    ∀ (k : PublicKey) (s : PrivateKey) (m : ℕ),
      k.encrypt m = k.encrypt (m % k.n) ∧ k.verify m = k.verify (m % k.n) ∧
      s.sign m = s.sign (m % s.n) ∧ s.decrypt m = s.decrypt (m % s.n) := by
  intro k s m
  refine ⟨?_, ?_, ?_, ?_⟩ <;>
    simp only [PublicKey.encrypt, PublicKey.verify, PrivateKey.sign,
      PrivateKey.decrypt, PrivateKey.n, modPow] <;>
    exact Nat.pow_mod _ _ _

/-- Claim C8: the four keyed operations are deterministic pure functions of
the input and the key material — any two keys with equal material give
identical outputs on every input (and in the embedding no operation mutates
any state). -/
theorem keyed_ops_pure_deterministic (k1 k2 : PublicKey) (s1 s2 : PrivateKey) (m : ℕ)
    (he : k1.e = k2.e) (hn : k1.n = k2.n)
    (hd : s1.d = s2.d) (hn2 : s1.publicKey.n = s2.publicKey.n) :
    k1.encrypt m = k2.encrypt m ∧ k1.verify m = k2.verify m ∧
    s1.sign m = s2.sign m ∧ s1.decrypt m = s2.decrypt m := by
  exact ⟨by simp only [PublicKey.encrypt]; rw [he, hn],
    by simp only [PublicKey.verify]; rw [he, hn],
    by simp only [PrivateKey.sign]; rw [hd, hn2],
    by simp only [PrivateKey.decrypt]; rw [hd, hn2]⟩

/-- Witness for C8 on two field-equal keys. -/
theorem keyed_ops_pure_deterministic_witness :
    (⟨65537, 15⟩ : PublicKey).encrypt 7 = (⟨65537, 15⟩ : PublicKey).encrypt 7 ∧
    (⟨65537, 15⟩ : PublicKey).verify 7 = (⟨65537, 15⟩ : PublicKey).verify 7 ∧
    kpW.privateKey.sign 7 = kpW.privateKey.sign 7 ∧
    kpW.privateKey.decrypt 7 = kpW.privateKey.decrypt 7 :=
  keyed_ops_pure_deterministic ⟨65537, 15⟩ ⟨65537, 15⟩ kpW.privateKey kpW.privateKey 7
    rfl rfl rfl rfl

/-! Helper lemmas for the equivalence of the two distribution variants. -/

theorem rsaSrc_keepLooping_eq (B p q : ℕ) :
    RsaSrc.keepLooping B p q = keepLooping B p q := rfl

theorem rsaSrc_genLoopFrom_eq (B : ℕ) (src : ℕ → ℕ → ℕ) :
    ∀ fuel i, RsaSrc.genLoopFrom B src fuel i = genLoopFrom B src fuel i := by
  intro fuel
  induction fuel with
  | zero => intro i; rfl
  | succ fuel ih =>
    intro i
    rw [RsaSrc.genLoopFrom, genLoopFrom, rsaSrc_keepLooping_eq]
    cases hk : keepLooping B (roundP B src i) (roundQ B src i) <;> simp [ih]

theorem rsaSrc_gen_eq (B : ℕ) (src : ℕ → ℕ → ℕ) (fuel : ℕ) :
    (RsaSrc.generateRandomKeys B src fuel).map kpOfSrc = generateRandomKeys B src fuel := by
  unfold RsaSrc.generateRandomKeys generateRandomKeys genLoop
  rw [rsaSrc_genLoopFrom_eq]
  cases h : genLoopFrom B src fuel 0 with
  | none => rfl
  | some pq =>
    obtain ⟨p, q⟩ := pq
    have hE : RsaSrc._E = _E := rfl
    rw [hE]
    dsimp only
    cases h2 : modInv _E ((p - 1) * (q - 1)) with
    | none => rfl
    | some d => rfl

/-- Claim C9: the module's two distribution variants are behaviorally
equivalent — under the same collaborator behavior and prime source, the
generator, the public-key operations and accessors, and the private-key
operations and accessors of the first variant produce results identical to
those of the second variant, for all inputs. -/
theorem distribution_variants_equivalent :
    ∀ (B : ℕ) (src : ℕ → ℕ → ℕ) (fuel : ℕ),
      (RsaSrc.generateRandomKeys B src fuel).map kpOfSrc = generateRandomKeys B src fuel ∧
      (∀ (k : RsaSrc.PublicKey) (x : ℕ),
        k.encrypt x = (pubOfSrc k).encrypt x ∧ k.verify x = (pubOfSrc k).verify x ∧
        k.bitLength = (pubOfSrc k).bitLength) ∧
      (∀ (s : RsaSrc.PrivateKey) (y : ℕ),
        s.sign y = (privOfSrc s).sign y ∧ s.decrypt y = (privOfSrc s).decrypt y ∧
        s.n = (privOfSrc s).n ∧ s.bitLength = (privOfSrc s).bitLength) := by
  intro B src fuel
  exact ⟨rsaSrc_gen_eq B src fuel,
    fun k x => ⟨rfl, rfl, rfl⟩,
    fun s y => ⟨rfl, rfl, rfl, rfl⟩⟩

/-! Helper lemma for the constructor truthiness claim. -/

theorem ctorField_none_iff (v : JSVal) :
    ((if truthy v then jsBigInt v else none) = none ↔ truthy v = false) ∧
    (truthy v = true → (if truthy v then jsBigInt v else none) = jsBigInt v) := by
  cases v with
  | null => simp [truthy, jsBigInt]
  | undefined => simp [truthy, jsBigInt]
  | num v => by_cases h : v = 0 <;> simp [truthy, jsBigInt, h]
  | bigint v => by_cases h : v = 0 <;> simp [truthy, jsBigInt, h]

/-- Claim C10: the `PrivateKey` constructor tests the optional factorization
arguments for truthiness, not presence — `_p`, `_q`, `_phi` are stored as
`null` exactly when the corresponding argument is falsy (`null`,
`undefined`, `0`, `0n`) and as `BigInt(argument)` otherwise — while `d` is
unconditionally coerced with `BigInt`, so construction with `d = null` or
`d = undefined` throws instead of producing a key. -/
theorem privateKey_ctor_truthiness :
    (∀ (dv : ℕ) (p q phi : JSVal) (pub : PublicKey) (k : PrivateKey),
        privateKeyNew (JSVal.bigint dv) p q phi pub = some k →
          k.d = dv ∧ k.publicKey = pub ∧
          (k._p = none ↔ truthy p = false) ∧
          (k._q = none ↔ truthy q = false) ∧
          (k._phi = none ↔ truthy phi = false) ∧
          (truthy p = true → k._p = jsBigInt p) ∧
          (truthy q = true → k._q = jsBigInt q) ∧
          (truthy phi = true → k._phi = jsBigInt phi)) ∧
    (∀ (dv : ℕ) (q phi : JSVal) (pub : PublicKey),
        (privateKeyNew (JSVal.bigint dv) (JSVal.bigint 0) q phi pub).map
          PrivateKey._p = some none) ∧
    (∀ (p q phi : JSVal) (pub : PublicKey),
        privateKeyNew JSVal.null p q phi pub = none ∧
        privateKeyNew JSVal.undefined p q phi pub = none) := by
  refine ⟨?_, ?_, ?_⟩
  · intro dv p q phi pub k h
    have h2 : (⟨dv, if truthy p then jsBigInt p else none,
                   if truthy q then jsBigInt q else none,
                   if truthy phi then jsBigInt phi else none, pub⟩ : PrivateKey) = k := by
      simpa [privateKeyNew, jsBigInt] using h
    subst h2
    exact ⟨rfl, rfl, (ctorField_none_iff p).1, (ctorField_none_iff q).1,
      (ctorField_none_iff phi).1, (ctorField_none_iff p).2, (ctorField_none_iff q).2,
      (ctorField_none_iff phi).2⟩
  · intro dv q phi pub
    rfl
  · intro p q phi pub
    exact ⟨rfl, rfl⟩

/-- Witness for C10: a truthy BigInt `p`, a `null` `q`, a falsy number
`phi`, and a BigInt `d`. -/
theorem privateKey_ctor_truthiness_witness :
    privateKeyNew (JSVal.bigint 7) (JSVal.bigint 5) JSVal.null (JSVal.num 0) ⟨65537, 15⟩ =
      some kC10 ∧
    (kC10.d = 7 ∧ kC10.publicKey = ⟨65537, 15⟩ ∧
      (kC10._p = none ↔ truthy (JSVal.bigint 5) = false) ∧
      (kC10._q = none ↔ truthy JSVal.null = false) ∧
      (kC10._phi = none ↔ truthy (JSVal.num 0) = false) ∧
      (truthy (JSVal.bigint 5) = true → kC10._p = jsBigInt (JSVal.bigint 5)) ∧
      (truthy JSVal.null = true → kC10._q = jsBigInt JSVal.null) ∧
      (truthy (JSVal.num 0) = true → kC10._phi = jsBigInt (JSVal.num 0))) := by
  have h : privateKeyNew (JSVal.bigint 7) (JSVal.bigint 5) JSVal.null (JSVal.num 0)
      ⟨65537, 15⟩ = some kC10 := by decide
  exact ⟨h, privateKey_ctor_truthiness.1 7 (JSVal.bigint 5) JSVal.null (JSVal.num 0)
    ⟨65537, 15⟩ kC10 h⟩

end RSA

